import Mathlib

/-!
# The VkFFT bridge: `vkfft_bridge.cpp`

A shallow embedding of the single native function of the repository,
`Java_com_seuprojeto_vkfftlib_VulkanBridge_runVkFFT`, together with the parts of
its surroundings that the function touches:

* `Double`              IEEE 754 binary64 values and their multiplication
                        (round to nearest, ties to even), used by `input[i] *= 2.0`;
* `Runtime`             the managed heap of `double[]` objects reached through
                        `JNIEnv`, and the Android log the `LOGI` macro writes to;
* `GetArrayLength`, `GetDoubleArrayRegion`, `NewDoubleArray`,
  `SetDoubleArrayRegion` the four JNI calls of the function;
* `whileLoop`, `forLoop` the `for (int i = 0; i < len; ++i)` loop with a 32-bit
                        counter.

Conventions.  A failed or undefined operation (an invalid reference, an index
outside a buffer, a negative size) is `none`.  Loops are run with a fuel bound;
running out of fuel is `none` as well, and the theorems show that any fuel above
the array length is enough.  Memory is unbounded: creating the vector and the
result array never fails.  A Java array has fewer than `2 ^ 31` elements, which
the theorems take as the hypothesis `input.length < 2 ^ 31`.  NaN payloads are
not distinguished: there is one NaN value.
-/

namespace VkFFTBridge

/-! ## IEEE 754 binary64 -/

/-- A binary64 value.  `finite neg expo frac` is the value with sign bit `neg`,
biased exponent field `expo` (0 for zeros and subnormals, 1..2046 for normal
numbers) and 52-bit fraction field `frac`.  The exponent field 2047 is split into
the two infinities and NaN. -/
inductive Double where
  | nan : Double
  | inf (neg : Bool) : Double
  | finite (neg : Bool) (expo : Fin 2047) (frac : Fin (2 ^ 52)) : Double
  deriving DecidableEq, Repr

namespace Double

/-- The integer significand of a finite value: the fraction field, with the
hidden leading bit for normal numbers. -/
def mant (expo : Fin 2047) (frac : Fin (2 ^ 52)) : Nat :=
  if expo.val = 0 then frac.val else 2 ^ 52 + frac.val

/-- The power of two by which the integer significand is scaled: a finite value
is `± mant * 2 ^ scale`. -/
def scale (expo : Fin 2047) : Int :=
  if expo.val = 0 then -1074 else (expo.val : Int) - 1075

/-- The quotient `m / 2 ^ shift` rounded to the nearest integer, ties to even. -/
def roundNearestEven (m shift : Nat) : Nat :=
  let q := m / 2 ^ shift
  let r := m % 2 ^ shift
  if 2 ^ shift < 2 * r then q + 1
  else if 2 * r = 2 ^ shift ∧ q % 2 = 1 then q + 1
  else q

/-- The number of binary digits of `m`, found in at most `fuel` halvings. -/
def bitLengthAux : Nat → Nat → Nat
  | 0, _ => 0
  | fuel + 1, m => if m = 0 then 0 else bitLengthAux fuel (m / 2) + 1

/-- The number of binary digits of `m`: 0 for 0, and `k + 1` when
`2 ^ k ≤ m < 2 ^ (k + 1)`. -/
def bitLength (m : Nat) : Nat := bitLengthAux m m

/-- The positive number `m * 2 ^ e` rounded to binary64 precision, as the packed
pair `expo * 2 ^ 52 + frac` of the exponent and fraction fields.  A result of
`2047 * 2 ^ 52` or more means overflow. -/
def roundPack (m : Nat) (e : Int) : Nat :=
  let q : Int := max (e + (bitLength m : Nat) - 53) (-1074)
  let sig : Nat :=
    if q ≤ e then m * 2 ^ (e - q).toNat else roundNearestEven m (q - e).toNat
  (q + 1074).toNat * 2 ^ 52 + sig

/-- The value with sign `neg` and packed exponent and fraction `p`; infinity on
overflow. -/
def ofPacked (neg : Bool) (p : Nat) : Double :=
  if h : p < 2047 * 2 ^ 52 then
    finite neg ⟨p / 2 ^ 52, Nat.div_lt_of_lt_mul (by rw [Nat.mul_comm]; exact h)⟩
      ⟨p % 2 ^ 52, Nat.mod_lt _ (by decide)⟩
  else inf neg

/-- The binary64 product `x * y` in the default rounding mode. -/
def mul : Double → Double → Double
  | nan, _ => nan
  | _, nan => nan
  | inf s, inf t => inf (xor s t)
  | inf s, finite t e f => if mant e f = 0 then nan else inf (xor s t)
  | finite s e f, inf t => if mant e f = 0 then nan else inf (xor s t)
  | finite s e f, finite t e' f' =>
    let m := mant e f * mant e' f'
    if m = 0 then finite (xor s t) ⟨0, by decide⟩ ⟨0, by decide⟩
    else ofPacked (xor s t) (roundPack m (scale e + scale e'))

/-- The rational value of a finite double; `none` for NaN and the infinities. -/
def toRat : Double → Option ℚ
  | nan => none
  | inf _ => none
  | finite s e f => some ((if s then -1 else 1) * (mant e f : ℚ) * (2 : ℚ) ^ scale e)

/-- The literal `0.0`, the value of a fresh `std::vector<double>` element and of
a fresh Java array element. -/
def zero : Double := finite false ⟨0, by decide⟩ ⟨0, by decide⟩

/-- The literal `1.0`. -/
def one : Double := finite false ⟨1023, by decide⟩ ⟨0, by decide⟩

/-- The literal `2.0` of `input[i] *= 2.0`. -/
def two : Double := finite false ⟨1024, by decide⟩ ⟨0, by decide⟩

/-- The literal `-2.5`. -/
def negTwoPointFive : Double := finite true ⟨1024, by decide⟩ ⟨2 ^ 50, by decide⟩

/-- The literal `-5.0`. -/
def negFive : Double := finite true ⟨1025, by decide⟩ ⟨2 ^ 50, by decide⟩

end Double

/-! ## The runtime: managed heap and log -/

/-- The type `jsize` (a `jint`): a signed 32-bit integer. -/
abbrev jsize := Int

/-- A `jdoubleArray` reference: the position of the array object in the heap. -/
abbrev jdoubleArray := Nat

/-- Reduction of an integer to the signed 32-bit range. -/
def wrapInt32 (z : Int) : Int := (z + 2 ^ 31) % 2 ^ 32 - 2 ^ 31

/-- The priorities of `android/log.h`. -/
inductive LogPriority where
  | ANDROID_LOG_UNKNOWN
  | ANDROID_LOG_DEFAULT
  | ANDROID_LOG_VERBOSE
  | ANDROID_LOG_DEBUG
  | ANDROID_LOG_INFO
  | ANDROID_LOG_WARN
  | ANDROID_LOG_ERROR
  | ANDROID_LOG_FATAL
  | ANDROID_LOG_SILENT
  deriving DecidableEq, Repr

/-- One record of the Android log. -/
structure LogRecord where
  prio : LogPriority
  tag : String
  text : String
  deriving DecidableEq, Repr

/-- What the function can observe and change outside its own frame: the
`double[]` objects of the managed heap, and the log. -/
structure Runtime where
  heap : List (List Double)
  log : List LogRecord
  deriving DecidableEq, Repr

/-- The macro `LOG_TAG`. -/
def LOG_TAG : String := "VkFFTBridge"

/-- The call `__android_log_print(prio, tag, text)`: appends one record. -/
def android_log_print (prio : LogPriority) (tag text : String) (env : Runtime) : Runtime :=
  ⟨env.heap, env.log ++ [⟨prio, tag, text⟩]⟩

/-- The macro `LOGI(...)`.  It is defined by the source file and expanded nowhere
in it. -/
def LOGI (text : String) (env : Runtime) : Runtime :=
  android_log_print LogPriority.ANDROID_LOG_INFO LOG_TAG text env

/-- The call `env->GetArrayLength(array)`. -/
def GetArrayLength (env : Runtime) (array : jdoubleArray) : Option jsize :=
  match env.heap[array]? with
  | none => none
  | some a => some (wrapInt32 a.length)

/-- The constructor `std::vector<double> v(n)`: `n` elements, each `0.0`. -/
def vectorOfSize (n : jsize) : Option (List Double) :=
  if 0 ≤ n then some (List.replicate n.toNat Double.zero) else none

/-- The call `env->GetDoubleArrayRegion(array, start, len, buf)`: copies the
elements `start .. start + len - 1` of the array object to the front of `buf`
and returns the buffer. -/
def GetDoubleArrayRegion (env : Runtime) (array : jdoubleArray) (start len : jsize)
    (buf : List Double) : Option (List Double) :=
  match env.heap[array]? with
  | none => none
  | some a =>
    if 0 ≤ start ∧ 0 ≤ len ∧ start + len ≤ a.length ∧ len.toNat ≤ buf.length then
      some ((a.drop start.toNat).take len.toNat ++ buf.drop len.toNat)
    else none

/-- The call `env->NewDoubleArray(len)`: a new array object of `len` zeros at the
end of the heap, and the reference to it. -/
def NewDoubleArray (env : Runtime) (len : jsize) : Option (Runtime × jdoubleArray) :=
  if 0 ≤ len then
    some (⟨env.heap ++ [List.replicate len.toNat Double.zero], env.log⟩, env.heap.length)
  else none

/-- The call `env->SetDoubleArrayRegion(array, start, len, buf)`: overwrites the
elements `start .. start + len - 1` of the array object with the front of
`buf`. -/
def SetDoubleArrayRegion (env : Runtime) (array : jdoubleArray) (start len : jsize)
    (buf : List Double) : Option Runtime :=
  match env.heap[array]? with
  | none => none
  | some a =>
    if 0 ≤ start ∧ 0 ≤ len ∧ start + len ≤ a.length ∧ len.toNat ≤ buf.length then
      some ⟨env.heap.set array
        (a.take start.toNat ++ buf.take len.toNat ++ a.drop (start.toNat + len.toNat)),
        env.log⟩
    else none

/-! ## The loop -/

/-- The variables the loop reads and writes: the counter `i` and the vector
`input`. -/
structure LoopState where
  i : Int
  input : List Double
  deriving DecidableEq, Repr

/-- A `while` loop run with a fuel bound.  The result is the state in which the
condition first fails and the number of times the body was executed; `none` when
the body fails or the fuel runs out. -/
def whileLoop {σ : Type} (cond : σ → Bool) (body : σ → Option σ) : Nat → σ → Option (σ × Nat)
  | 0, _ => none
  | fuel + 1, s =>
    if cond s then
      match body s with
      | none => none
      | some s' =>
        match whileLoop cond body fuel s' with
        | none => none
        | some r => some (r.1, r.2 + 1)
    else some (s, 0)

/-- The loop condition `i < len`. -/
def loopCond (len : jsize) (s : LoopState) : Bool := decide (s.i < len)

/-- One pass of the loop: the body `input[i] *= 2.0` followed by `++i`. -/
def loopBody (s : LoopState) : Option LoopState :=
  if 0 ≤ s.i then
    match s.input[s.i.toNat]? with
    | none => none
    | some x => some ⟨wrapInt32 (s.i + 1), s.input.set s.i.toNat (Double.mul x Double.two)⟩
  else none

/-- The statement `for (int i = 0; i < len; ++i) input[i] *= 2.0;`. -/
def forLoop (fuel : Nat) (len : jsize) (input : List Double) : Option (LoopState × Nat) :=
  whileLoop (loopCond len) loopBody fuel ⟨0, input⟩

/-! ## The bridge function -/

/-- Lines 14 to 16 of the source: the length of the argument and the private
copy of its elements. -/
def readInput (env : Runtime) (inputArray : jdoubleArray) : Option (jsize × List Double) :=
  match GetArrayLength env inputArray with
  | none => none
  | some len =>
    match vectorOfSize len with
    | none => none
    | some input =>
      match GetDoubleArrayRegion env inputArray 0 len input with
      | none => none
      | some input => some (len, input)

/-- Lines 22 to 24 of the source: the result array is created, filled from the
vector and returned. -/
def writeResult (env : Runtime) (len : jsize) (input : List Double) :
    Option (Runtime × jdoubleArray) :=
  match NewDoubleArray env len with
  | none => none
  | some (env1, result) =>
    match SetDoubleArrayRegion env1 result 0 len input with
    | none => none
    | some env2 => some (env2, result)

/-- The native method `runVkFFT`.  The result is the runtime after the call and
the returned reference. -/
def Java_com_seuprojeto_vkfftlib_VulkanBridge_runVkFFT (fuel : Nat) (env : Runtime)
    (inputArray : jdoubleArray) : Option (Runtime × jdoubleArray) :=
  match readInput env inputArray with
  | none => none
  | some (len, input) =>
    match forLoop fuel len input with
    | none => none
    | some (s, _) => writeResult env len s.input

/-- The function under the name the specification uses. -/
abbrev runVkFFT := Java_com_seuprojeto_vkfftlib_VulkanBridge_runVkFFT

/-- The number of body executions of the loop inside a call of `runVkFFT`. -/
def runVkFFT_iterations (fuel : Nat) (env : Runtime) (inputArray : jdoubleArray) :
    Option Nat :=
  match readInput env inputArray with
  | none => none
  | some (len, input) =>
    match forLoop fuel len input with
    | none => none
    | some (_, n) => some n

/-- The specification's rule, in its own words: each output element is the
corresponding input element times 2.0.  The theorems compare the code with
it. -/
def doubled (input : List Double) : List Double :=
  input.map (fun x => Double.mul x Double.two)

/-! ## Sample runtimes -/

/-- A runtime whose heap holds the one array `[1.0, -2.5, 0.0]`; its log is
empty. -/
def sampleEnv : Runtime :=
  ⟨[[Double.one, Double.negTwoPointFive, Double.zero]], []⟩

/-- A runtime whose heap holds the one array of length zero. -/
def emptyArrayEnv : Runtime := ⟨[[]], []⟩

/-- A runtime whose heap holds the array `[NaN, +inf, -inf, 1.0]`. -/
def specialEnv : Runtime :=
  ⟨[[Double.nan, Double.inf false, Double.inf true, Double.one]], []⟩

/-- A runtime in which a log record was written and a first array was created
before the array `[1.0, -2.5, 0.0]`. -/
def laterEnv : Runtime :=
  LOGI "earlier call" ⟨[[Double.two], [Double.one, Double.negTwoPointFive, Double.zero]], []⟩

/-! ## Lemmas on the loop -/

theorem wrapInt32_of_range (z : Int) (h0 : 0 ≤ z) (h1 : z < 2 ^ 31) : wrapInt32 z = z := by
  unfold wrapInt32
  omega

/-- The loop invariant: when the counter is `done.length`, the vector is the
doubled elements `done` followed by the untouched elements `rest`; from there the
loop runs the body `rest.length` more times and ends with every element
doubled. -/
theorem whileLoop_invariant (rest done : List Double) (fuel : Nat)
    (hlen : done.length + rest.length < 2 ^ 31) (hfuel : rest.length < fuel) :
    whileLoop (loopCond ((done.length + rest.length : Nat) : Int)) loopBody fuel
        ⟨(done.length : Int), done ++ rest⟩
      = some (⟨((done.length + rest.length : Nat) : Int), done ++ doubled rest⟩, rest.length) := by
  induction rest generalizing done fuel with
  | nil =>
    cases fuel with
    | zero => simp at hfuel
    | succ fuel => simp [whileLoop, loopCond, doubled]
  | cons x rest ih =>
    cases fuel with
    | zero => simp at hfuel
    | succ fuel =>
      have hlen2 : (done ++ [Double.mul x Double.two]).length + rest.length < 2 ^ 31 := by
        simp at hlen ⊢; omega
      have hfuel2 : rest.length < fuel := by simp at hfuel; omega
      have h := ih (done ++ [Double.mul x Double.two]) fuel hlen2 hfuel2
      have hw : wrapInt32 ((done.length : Int) + 1) = (done.length : Int) + 1 := by
        rw [wrapInt32_of_range] <;> simp at hlen ⊢ <;> omega
      have e1 : (done ++ [Double.mul x Double.two]).length + rest.length
          = done.length + (x :: rest).length := by simp; omega
      rw [e1] at h
      have hget : (done ++ x :: rest)[done.length]? = some x := by
        rw [List.getElem?_append_right (Nat.le_refl _)]; simp
      have hset : ∀ y, (done ++ x :: rest).set done.length y = done ++ y :: rest := by simp
      have hcond : ((done.length : Int) < ((done.length + (x :: rest).length : Nat) : Int)) := by
        simp only [List.length_cons]; omega
      simp only [List.append_assoc, List.singleton_append] at h
      simp only [whileLoop, loopCond, loopBody, hcond, decide_True, if_true, Int.toNat_ofNat,
        Int.ofNat_nonneg, hget, hset, hw]
      have e2 : (done.length : Int) + 1 = ((done ++ [Double.mul x Double.two]).length : Int) := by
        simp
      rw [e2, h]
      simp [doubled]

theorem forLoop_eq (input : List Double) (fuel : Nat) (hlen : input.length < 2 ^ 31)
    (hfuel : input.length < fuel) :
    forLoop fuel (input.length : Int) input
      = some (⟨(input.length : Int), doubled input⟩, input.length) := by
  have h := whileLoop_invariant input [] fuel (by simpa using hlen) hfuel
  simpa [forLoop] using h

/-- With fuel no greater than the number of elements still to be processed the
bounded run of the loop has not finished. -/
theorem whileLoop_out_of_fuel (rest done : List Double) (fuel : Nat)
    (hlen : done.length + rest.length < 2 ^ 31) (hfuel : fuel ≤ rest.length) :
    whileLoop (loopCond ((done.length + rest.length : Nat) : Int)) loopBody fuel
        ⟨(done.length : Int), done ++ rest⟩ = none := by
  induction rest generalizing done fuel with
  | nil =>
    have hz : fuel = 0 := by simpa using hfuel
    subst hz
    rfl
  | cons x rest ih =>
    cases fuel with
    | zero => rfl
    | succ fuel =>
      have hlen2 : (done ++ [Double.mul x Double.two]).length + rest.length < 2 ^ 31 := by
        simp at hlen ⊢; omega
      have hfuel2 : fuel ≤ rest.length := by simp at hfuel; omega
      have hrec := ih (done ++ [Double.mul x Double.two]) fuel hlen2 hfuel2
      have hw : wrapInt32 ((done.length : Int) + 1) = (done.length : Int) + 1 := by
        rw [wrapInt32_of_range] <;> simp at hlen ⊢ <;> omega
      have e1 : (done ++ [Double.mul x Double.two]).length + rest.length
          = done.length + (x :: rest).length := by simp; omega
      rw [e1] at hrec
      have hget : (done ++ x :: rest)[done.length]? = some x := by
        rw [List.getElem?_append_right (Nat.le_refl _)]; simp
      have hset : ∀ y, (done ++ x :: rest).set done.length y = done ++ y :: rest := by simp
      have hcond : ((done.length : Int) < ((done.length + (x :: rest).length : Nat) : Int)) := by
        simp only [List.length_cons]; omega
      simp only [List.append_assoc, List.singleton_append] at hrec
      simp only [whileLoop, loopCond, loopBody, hcond, decide_True, if_true, Int.toNat_ofNat,
        Int.ofNat_nonneg, hget, hset, hw]
      have e2 : (done.length : Int) + 1 = ((done ++ [Double.mul x Double.two]).length : Int) := by
        simp
      rw [e2, hrec]

theorem forLoop_out_of_fuel (input : List Double) (fuel : Nat) (hlen : input.length < 2 ^ 31)
    (hfuel : fuel ≤ input.length) :
    forLoop fuel (input.length : Int) input = none := by
  have h := whileLoop_out_of_fuel input [] fuel (by simpa using hlen) hfuel
  simpa [forLoop] using h

theorem doubled_length (input : List Double) : (doubled input).length = input.length := by
  simp [doubled]

/-! ## Lemmas on the calls across the boundary -/

theorem readInput_eq (env : Runtime) (inputArray : jdoubleArray) (input : List Double)
    (h : env.heap[inputArray]? = some input) (hlen : input.length < 2 ^ 31) :
    readInput env inputArray = some ((input.length : Int), input) := by
  have hw : wrapInt32 (input.length : Int) = (input.length : Int) :=
    wrapInt32_of_range _ (Int.ofNat_nonneg _) (by exact_mod_cast hlen)
  simp [readInput, GetArrayLength, vectorOfSize, GetDoubleArrayRegion, h, hw]

theorem writeResult_eq (env : Runtime) (v : List Double) :
    writeResult env (v.length : Int) v
      = some (⟨env.heap ++ [v], env.log⟩, env.heap.length) := by
  simp [writeResult, NewDoubleArray, SetDoubleArrayRegion]

/-- The whole effect of a call: the heap gains the doubled copy of the input at
its end, the log is untouched, and the new array's reference is returned. -/
theorem runVkFFT_eq (fuel : Nat) (env : Runtime) (inputArray : jdoubleArray)
    (input : List Double) (h : env.heap[inputArray]? = some input)
    (hlen : input.length < 2 ^ 31) (hfuel : input.length < fuel) :
    runVkFFT fuel env inputArray
      = some (⟨env.heap ++ [doubled input], env.log⟩, env.heap.length) := by
  have hw := writeResult_eq env (doubled input)
  rw [doubled_length] at hw
  simp [runVkFFT, Java_com_seuprojeto_vkfftlib_VulkanBridge_runVkFFT,
    readInput_eq env inputArray input h hlen, forLoop_eq input fuel hlen hfuel, hw]

theorem runVkFFT_iterations_eq (fuel : Nat) (env : Runtime) (inputArray : jdoubleArray)
    (input : List Double) (h : env.heap[inputArray]? = some input)
    (hlen : input.length < 2 ^ 31) (hfuel : input.length < fuel) :
    runVkFFT_iterations fuel env inputArray = some input.length := by
  simp [runVkFFT_iterations, readInput_eq env inputArray input h hlen,
    forLoop_eq input fuel hlen hfuel]

/-! ## Lemmas on binary64 multiplication by two -/

namespace Double

theorem bitLengthAux_zero (fuel : Nat) : bitLengthAux fuel 0 = 0 := by
  cases fuel <;> simp [bitLengthAux]

theorem bitLengthAux_of_range (k : Nat) :
    ∀ fuel m : Nat, k < fuel → 2 ^ k ≤ m → m < 2 ^ (k + 1) → bitLengthAux fuel m = k + 1 := by
  induction k with
  | zero =>
    intro fuel m hf h1 h2
    have hm : m = 1 := by omega
    subst hm
    cases fuel with
    | zero => omega
    | succ fuel => simp [bitLengthAux, bitLengthAux_zero]
  | succ k ih =>
    intro fuel m hf h1 h2
    cases fuel with
    | zero => omega
    | succ fuel =>
      have hpos : 0 < 2 ^ k := Nat.two_pow_pos _
      have hm : m ≠ 0 := by
        have : 0 < 2 ^ (k + 1) := Nat.two_pow_pos _
        omega
      have e1 : 2 ^ (k + 1) = 2 * 2 ^ k := by rw [pow_succ]; ring
      have e2 : 2 ^ (k + 1 + 1) = 2 * 2 ^ (k + 1) := by rw [pow_succ]; ring
      have h3 : 2 ^ k ≤ m / 2 := by omega
      have h4 : m / 2 < 2 ^ (k + 1) := by omega
      simp [bitLengthAux, hm, ih fuel (m / 2) (by omega) h3 h4]

theorem bitLength_of_range (k m : Nat) (h1 : 2 ^ k ≤ m) (h2 : m < 2 ^ (k + 1)) :
    bitLength m = k + 1 := by
  have hk : k < 2 ^ k := Nat.lt_two_pow k
  exact bitLengthAux_of_range k m m (by omega) h1 h2

/-- The digit count agrees with the library's binary logarithm. -/
theorem bitLength_eq_log2 (m : Nat) (hm : m ≠ 0) : bitLength m = Nat.log2 m + 1 :=
  bitLength_of_range (Nat.log2 m) m (Nat.log2_self_le hm) Nat.lt_log2_self

theorem roundNearestEven_exact (a shift : Nat) : roundNearestEven (a * 2 ^ shift) shift = a := by
  have hp : 0 < 2 ^ shift := Nat.two_pow_pos _
  have h1 : a * 2 ^ shift / 2 ^ shift = a := Nat.mul_div_cancel _ hp
  have h2 : a * 2 ^ shift % 2 ^ shift = 0 := Nat.mul_mod_left _ _
  simp only [roundNearestEven, h1, h2]
  rw [if_neg (by omega), if_neg (by omega)]

theorem mul_finite_two (s : Bool) (e : Fin 2047) (f : Fin (2 ^ 52)) :
    mul (finite s e f) two
      = if mant e f * 2 ^ 52 = 0 then finite s ⟨0, by decide⟩ ⟨0, by decide⟩
        else ofPacked s (roundPack (mant e f * 2 ^ 52) (scale e + (-51))) := by
  simp only [mul, two, Bool.xor_false]
  rfl

/-- Doubling a zero or subnormal value doubles its fraction field, carrying into
the exponent field when it reaches `2 ^ 52`. -/
theorem mul_two_subnormal (s : Bool) (e : Fin 2047) (f : Fin (2 ^ 52)) (he : e.val = 0) :
    mul (finite s e f) two = ofPacked s (2 * f.val) := by
  rw [mul_finite_two]
  have hm : mant e f = f.val := by simp [mant, he]
  have hs : scale e = -1074 := by simp [scale, he]
  rw [hm, hs]
  by_cases hf : f.val = 0
  · rw [if_pos (by simp [hf]), hf]
    rfl
  · have hlt : f.val < 2 ^ 52 := f.isLt
    obtain ⟨k, hk1, hk2⟩ : ∃ k, 2 ^ k ≤ f.val ∧ f.val < 2 ^ (k + 1) :=
      ⟨Nat.log2 f.val, Nat.log2_self_le hf, Nat.lt_log2_self⟩
    have hk : k < 52 := by
      by_contra hc
      have : 2 ^ 52 ≤ 2 ^ k := Nat.pow_le_pow_right (by decide) (by omega)
      omega
    have hb : bitLength (f.val * 2 ^ 52) = k + 52 + 1 := by
      apply bitLength_of_range
      · rw [pow_add]; exact Nat.mul_le_mul_right _ hk1
      · have : 2 ^ (k + 52 + 1) = 2 ^ (k + 1) * 2 ^ 52 := by ring
        rw [this]; exact Nat.mul_lt_mul_of_pos_right hk2 (Nat.two_pow_pos _)
    have hq : max ((-1074 : Int) + (-51) + ((k + 52 + 1 : Nat) : Int) - 53) (-1074)
        = -1074 := by
      apply max_eq_right; push_cast; omega
    have hr : roundNearestEven (f.val * 2 ^ 52) 51 = 2 * f.val := by
      have : f.val * 2 ^ 52 = (2 * f.val) * 2 ^ 51 := by ring
      rw [this, roundNearestEven_exact]
    have hne : ¬ f.val * 2 ^ 52 = 0 := by
      have : 0 < 2 ^ 52 := Nat.two_pow_pos _
      exact Nat.mul_ne_zero hf (by omega)
    rw [if_neg hne]
    simp only [roundPack, hb, hq]
    rw [if_neg (by decide)]
    have e1 : ((-1074 : Int) - (-1074 + -51)).toNat = 51 := by decide
    have e2 : ((-1074 : Int) + 1074).toNat = 0 := by decide
    rw [e1, e2, hr]
    simp

/-- Doubling a normal value adds one to its exponent field and keeps the
fraction. -/
theorem mul_two_normal (s : Bool) (e : Fin 2047) (f : Fin (2 ^ 52)) (he : e.val ≠ 0) :
    mul (finite s e f) two = ofPacked s ((e.val + 1) * 2 ^ 52 + f.val) := by
  rw [mul_finite_two]
  have hm : mant e f = 2 ^ 52 + f.val := by simp [mant, he]
  have hs : scale e = (e.val : Int) - 1075 := by simp [scale, he]
  rw [hm, hs]
  have hlt : f.val < 2 ^ 52 := f.isLt
  have hb : bitLength ((2 ^ 52 + f.val) * 2 ^ 52) = 104 + 1 := by
    apply bitLength_of_range
    · have : 2 ^ 104 = 2 ^ 52 * 2 ^ 52 := by norm_num
      rw [this]; exact Nat.mul_le_mul_right _ (by omega)
    · have : 2 ^ (104 + 1) = 2 ^ 53 * 2 ^ 52 := by norm_num
      rw [this]; exact Nat.mul_lt_mul_of_pos_right (by omega) (Nat.two_pow_pos _)
  have hne : ¬ (2 ^ 52 + f.val) * 2 ^ 52 = 0 :=
    Nat.mul_ne_zero (by omega) (Nat.ne_of_gt (Nat.two_pow_pos _))
  have hq : max ((e.val : Int) - 1075 + (-51) + ((104 + 1 : Nat) : Int) - 53) (-1074)
      = (e.val : Int) - 1074 := by
    rw [max_eq_left] <;> push_cast <;> omega
  rw [if_neg hne]
  simp only [roundPack, hb, hq]
  rw [if_neg (by omega)]
  have e1 : ((e.val : Int) - 1074 - ((e.val : Int) - 1075 + -51)).toNat = 52 := by omega
  have e2 : ((e.val : Int) - 1074 + 1074).toNat = e.val := by omega
  rw [e1, e2, roundNearestEven_exact]
  have e3 : e.val * 2 ^ 52 + (2 ^ 52 + f.val) = (e.val + 1) * 2 ^ 52 + f.val := by ring
  rw [e3]

theorem ofPacked_of_lt (s : Bool) (p : Nat) (hp : p < 2047 * 2 ^ 52) :
    ofPacked s p
      = finite s ⟨p / 2 ^ 52, Nat.div_lt_of_lt_mul (by rw [Nat.mul_comm]; exact hp)⟩
          ⟨p % 2 ^ 52, Nat.mod_lt _ (Nat.two_pow_pos _)⟩ := by
  unfold ofPacked
  rw [dif_pos hp]

theorem ofPacked_of_ge (s : Bool) (p : Nat) (hp : 2047 * 2 ^ 52 ≤ p) : ofPacked s p = inf s := by
  unfold ofPacked
  rw [dif_neg (by omega)]

/-- Doubling a value with the largest finite exponent gives the infinity of its
sign. -/
theorem mul_two_overflow (s : Bool) (e : Fin 2047) (f : Fin (2 ^ 52)) (he : e.val = 2046) :
    mul (finite s e f) two = inf s := by
  rw [mul_two_normal s e f (by omega), he]
  exact ofPacked_of_ge s _ (by omega)

/-- Below the largest exponent, multiplication by `2.0` is exact: the product is
finite and its value is twice the value of the operand. -/
theorem toRat_mul_two (s : Bool) (e : Fin 2047) (f : Fin (2 ^ 52)) (he : e.val < 2046) :
    toRat (mul (finite s e f) two)
      = some (2 * ((if s then -1 else 1) * (mant e f : ℚ) * (2 : ℚ) ^ scale e)) := by
  have hlt : f.val < 2 ^ 52 := f.isLt
  by_cases h0 : e.val = 0
  · rw [mul_two_subnormal s e f h0, ofPacked_of_lt s _ (by omega)]
    by_cases hf : 2 * f.val < 2 ^ 52
    · have h1 : 2 * f.val / 2 ^ 52 = 0 := Nat.div_eq_of_lt hf
      have h2 : 2 * f.val % 2 ^ 52 = 2 * f.val := Nat.mod_eq_of_lt hf
      simp only [toRat, mant, scale, h0, h1, h2, if_true]
      push_cast
      rw [Option.some_inj]
      ring
    · have h1 : 2 * f.val / 2 ^ 52 = 1 := by omega
      have h2 : 2 * f.val % 2 ^ 52 = 2 * f.val - 2 ^ 52 := by omega
      have h3 : 2 ^ 52 + (2 * f.val - 2 ^ 52) = 2 * f.val := by omega
      simp only [toRat, mant, scale, h0, h1, h2, h3, if_true, one_ne_zero, if_false]
      have hz : (((1 : Nat) : Int) - 1075) = -1074 := by norm_num
      rw [Option.some_inj, hz]
      push_cast
      ring
  · rw [mul_two_normal s e f h0, ofPacked_of_lt s _ (by omega)]
    have h1 : ((e.val + 1) * 2 ^ 52 + f.val) / 2 ^ 52 = e.val + 1 := by omega
    have h2 : ((e.val + 1) * 2 ^ 52 + f.val) % 2 ^ 52 = f.val := by omega
    have h3 : (((e.val + 1 : Nat) : Int) - 1075) = ((e.val : Int) - 1075) + 1 := by
      push_cast; omega
    simp only [toRat, mant, scale, h0, h1, h2, h3, if_false, Nat.succ_ne_zero]
    rw [zpow_add_one₀ (by norm_num : (2 : ℚ) ≠ 0), Option.some_inj]
    ring

set_option maxRecDepth 10000 in
/-- The product `0.1 * 0.1` is inexact and rounds to `0x3F847AE147AE147C`. -/
theorem mul_rounds_to_nearest :
    mul (finite false ⟨1019, by decide⟩ ⟨0x999999999999A, by decide⟩)
        (finite false ⟨1019, by decide⟩ ⟨0x999999999999A, by decide⟩)
      = finite false ⟨1016, by decide⟩ ⟨0x47AE147AE147C, by decide⟩ := by
  decide

set_option maxRecDepth 10000 in
/-- Halving 3, 5 and -1 units of the smallest subnormal: the ties go to the even
neighbour, and the sign of a zero result is kept. -/
theorem mul_ties_to_even :
    mul (finite false ⟨0, by decide⟩ ⟨3, by decide⟩)
        (finite false ⟨1022, by decide⟩ ⟨0, by decide⟩)
      = finite false ⟨0, by decide⟩ ⟨2, by decide⟩
    ∧ mul (finite false ⟨0, by decide⟩ ⟨5, by decide⟩)
        (finite false ⟨1022, by decide⟩ ⟨0, by decide⟩)
      = finite false ⟨0, by decide⟩ ⟨2, by decide⟩
    ∧ mul (finite true ⟨0, by decide⟩ ⟨1, by decide⟩)
        (finite false ⟨1022, by decide⟩ ⟨0, by decide⟩)
      = finite true ⟨0, by decide⟩ ⟨0, by decide⟩ := by
  decide

set_option maxRecDepth 10000 in
/-- Infinity times zero is NaN, the signs of infinities multiply, and a product
above the largest finite value is an infinity. -/
theorem mul_special_values :
    mul (inf false) zero = nan
    ∧ mul (inf true) (inf true) = inf false
    ∧ mul (finite false ⟨2046, by decide⟩ ⟨2 ^ 52 - 1, by decide⟩)
        (finite true ⟨1023, by decide⟩ ⟨1, by decide⟩) = inf true := by
  decide

theorem toRat_zero : toRat zero = some 0 := by
  simp [toRat, zero, mant]

theorem toRat_one : toRat one = some 1 := by
  simp only [toRat, one, mant, scale]
  norm_num

theorem toRat_two : toRat two = some 2 := by
  simp only [toRat, two, mant, scale]
  norm_num

theorem toRat_negTwoPointFive : toRat negTwoPointFive = some (-5 / 2) := by
  simp only [toRat, negTwoPointFive, mant, scale]
  norm_num

theorem toRat_negFive : toRat negFive = some (-5) := by
  simp only [toRat, negFive, mant, scale]
  norm_num

end Double

/-! ## The properties of `runVkFFT` -/

theorem doubled_getElem? (input : List Double) (i : Nat) :
    (doubled input)[i]? = (input[i]?).map (fun x => Double.mul x Double.two) := by
  simp [doubled]

theorem heap_getElem?_new (heap : List (List Double)) (v : List Double) :
    (heap ++ [v])[heap.length]? = some v := by
  simp

theorem heap_getElem?_old (heap : List (List Double)) (v : List Double) (r : Nat)
    (hr : r < heap.length) : (heap ++ [v])[r]? = heap[r]? := by
  rw [List.getElem?_append_left hr]

/-- C1: for every array of doubles in the heap, a call of `runVkFFT` with enough
fuel returns a reference to an array of the same length that holds, at every
index `i` of the input, the binary64 product of the input element at `i` and
2.0. -/
theorem runVkFFT_elementwise (fuel : Nat) (env : Runtime) (inputArray : jdoubleArray)
    (input : List Double) (h : env.heap[inputArray]? = some input)
    (hlen : input.length < 2 ^ 31) (hfuel : input.length < fuel) :
    ∃ env1 result output, runVkFFT fuel env inputArray = some (env1, result)
      ∧ env1.heap[result]? = some output
      ∧ output.length = input.length
      ∧ ∀ (i : Nat) (x : Double), input[i]? = some x → output[i]? = some (Double.mul x Double.two) := by
  refine ⟨_, _, doubled input, runVkFFT_eq fuel env inputArray input h hlen hfuel,
    heap_getElem?_new _ _, doubled_length input, ?_⟩
  intro i x hx
  rw [doubled_getElem?, hx]
  rfl

/-- Witness of C1 on the array `[1.0, -2.5, 0.0]`. -/
theorem runVkFFT_elementwise_witness :
    sampleEnv.heap[0]? = some [Double.one, Double.negTwoPointFive, Double.zero]
      ∧ [Double.one, Double.negTwoPointFive, Double.zero].length < 2 ^ 31
      ∧ [Double.one, Double.negTwoPointFive, Double.zero].length < 4
      ∧ ∃ env1 result output, runVkFFT 4 sampleEnv 0 = some (env1, result)
        ∧ env1.heap[result]? = some output
        ∧ output.length = [Double.one, Double.negTwoPointFive, Double.zero].length
        ∧ ∀ (i : Nat) (x : Double), [Double.one, Double.negTwoPointFive, Double.zero][i]? = some x →
            output[i]? = some (Double.mul x Double.two) :=
  ⟨rfl, by decide, by decide,
    runVkFFT_elementwise 4 sampleEnv 0 [Double.one, Double.negTwoPointFive, Double.zero]
      rfl (by decide) (by decide)⟩

/-- C2: for every array of length `N` in the heap, the array returned by
`runVkFFT` has length exactly `N`. -/
theorem runVkFFT_length (fuel : Nat) (env : Runtime) (inputArray : jdoubleArray)
    (input : List Double) (h : env.heap[inputArray]? = some input)
    (hlen : input.length < 2 ^ 31) (hfuel : input.length < fuel) :
    ∃ env1 result output, runVkFFT fuel env inputArray = some (env1, result)
      ∧ env1.heap[result]? = some output
      ∧ output.length = input.length :=
  ⟨_, _, doubled input, runVkFFT_eq fuel env inputArray input h hlen hfuel,
    heap_getElem?_new _ _, doubled_length input⟩

/-- Witness of C2 on the array `[1.0, -2.5, 0.0]`. -/
theorem runVkFFT_length_witness :
    sampleEnv.heap[0]? = some [Double.one, Double.negTwoPointFive, Double.zero]
      ∧ [Double.one, Double.negTwoPointFive, Double.zero].length < 2 ^ 31
      ∧ [Double.one, Double.negTwoPointFive, Double.zero].length < 4
      ∧ ∃ env1 result output, runVkFFT 4 sampleEnv 0 = some (env1, result)
        ∧ env1.heap[result]? = some output
        ∧ output.length = [Double.one, Double.negTwoPointFive, Double.zero].length :=
  ⟨rfl, by decide, by decide,
    runVkFFT_length 4 sampleEnv 0 [Double.one, Double.negTwoPointFive, Double.zero]
      rfl (by decide) (by decide)⟩

/-- C3: called on an array of length zero, `runVkFFT` returns (it does not
fail), the array it returns is empty, and the loop body is executed zero
times: the loop leaves at its first test with the counter and the vector as they
were. -/
theorem runVkFFT_empty (fuel : Nat) (env : Runtime) (inputArray : jdoubleArray)
    (h : env.heap[inputArray]? = some []) (hfuel : 0 < fuel) :
    (∃ env1 result, runVkFFT fuel env inputArray = some (env1, result)
        ∧ env1.heap[result]? = some [])
      ∧ runVkFFT_iterations fuel env inputArray = some 0
      ∧ forLoop fuel 0 [] = some (⟨0, []⟩, 0) := by
  refine ⟨⟨_, _, runVkFFT_eq fuel env inputArray [] h (by decide) hfuel, ?_⟩,
    runVkFFT_iterations_eq fuel env inputArray [] h (by decide) hfuel, ?_⟩
  · simp [doubled]
  · have hf := forLoop_eq [] fuel (by decide) hfuel
    simpa [doubled] using hf

/-- Witness of C3 on a heap that holds an empty array. -/
theorem runVkFFT_empty_witness :
    emptyArrayEnv.heap[0]? = some [] ∧ 0 < 1
      ∧ (∃ env1 result, runVkFFT 1 emptyArrayEnv 0 = some (env1, result)
          ∧ env1.heap[result]? = some [])
      ∧ runVkFFT_iterations 1 emptyArrayEnv 0 = some 0
      ∧ forLoop 1 0 [] = some (⟨0, []⟩, 0) :=
  ⟨rfl, by decide, runVkFFT_empty 1 emptyArrayEnv 0 rfl (by decide)⟩

/-- C4: after a call of `runVkFFT` the caller's array holds exactly the values
it held before; every array that existed before the call is unchanged, and the
heap after the call is the heap before it with one new array, the returned one,
added at the end. -/
theorem runVkFFT_input_unmodified (fuel : Nat) (env : Runtime) (inputArray : jdoubleArray)
    (input : List Double) (h : env.heap[inputArray]? = some input)
    (hlen : input.length < 2 ^ 31) (hfuel : input.length < fuel) :
    ∃ env1 result output, runVkFFT fuel env inputArray = some (env1, result)
      ∧ env1.heap[inputArray]? = some input
      ∧ (∀ r : Nat, r < env.heap.length → env1.heap[r]? = env.heap[r]?)
      ∧ env1.heap = env.heap ++ [output]
      ∧ result = env.heap.length := by
  refine ⟨_, _, doubled input, runVkFFT_eq fuel env inputArray input h hlen hfuel,
    ?_, fun r hr => heap_getElem?_old _ _ r hr, rfl, rfl⟩
  have hr : inputArray < env.heap.length := by
    by_contra hc
    rw [List.getElem?_eq_none (Nat.le_of_not_lt hc)] at h
    exact Option.noConfusion h
  show (env.heap ++ [doubled input])[inputArray]? = some input
  rw [heap_getElem?_old _ _ _ hr, h]

/-- Witness of C4 on the array `[1.0, -2.5, 0.0]`. -/
theorem runVkFFT_input_unmodified_witness :
    sampleEnv.heap[0]? = some [Double.one, Double.negTwoPointFive, Double.zero]
      ∧ [Double.one, Double.negTwoPointFive, Double.zero].length < 2 ^ 31
      ∧ [Double.one, Double.negTwoPointFive, Double.zero].length < 4
      ∧ ∃ env1 result output, runVkFFT 4 sampleEnv 0 = some (env1, result)
        ∧ env1.heap[0]? = some [Double.one, Double.negTwoPointFive, Double.zero]
        ∧ (∀ r : Nat, r < sampleEnv.heap.length → env1.heap[r]? = sampleEnv.heap[r]?)
        ∧ env1.heap = sampleEnv.heap ++ [output]
        ∧ result = sampleEnv.heap.length :=
  ⟨rfl, by decide, by decide,
    runVkFFT_input_unmodified 4 sampleEnv 0
      [Double.one, Double.negTwoPointFive, Double.zero] rfl (by decide) (by decide)⟩

set_option maxRecDepth 10000 in
theorem doubled_scenario :
    doubled [Double.one, Double.negTwoPointFive, Double.zero]
      = [Double.two, Double.negFive, Double.zero] := by
  decide

set_option maxRecDepth 10000 in
theorem runVkFFT_sampleEnv :
    runVkFFT 4 sampleEnv 0
      = some (⟨[[Double.one, Double.negTwoPointFive, Double.zero],
                [Double.two, Double.negFive, Double.zero]], []⟩, 1) := by
  decide

/-- C5: on an array holding `[1.0, -2.5, 0.0]`, `runVkFFT` returns an array
holding exactly `[2.0, -5.0, 0.0]`. -/
theorem runVkFFT_scenario (fuel : Nat) (env : Runtime) (inputArray : jdoubleArray)
    (h : env.heap[inputArray]? = some [Double.one, Double.negTwoPointFive, Double.zero])
    (hfuel : 3 < fuel) :
    ∃ env1 result, runVkFFT fuel env inputArray = some (env1, result)
      ∧ env1.heap[result]? = some [Double.two, Double.negFive, Double.zero] := by
  refine ⟨_, _, runVkFFT_eq fuel env inputArray _ h (by decide) hfuel, ?_⟩
  rw [doubled_scenario]
  exact heap_getElem?_new _ _

/-- Witness of C5 on a heap that holds only that array. -/
theorem runVkFFT_scenario_witness :
    sampleEnv.heap[0]? = some [Double.one, Double.negTwoPointFive, Double.zero] ∧ 3 < 4
      ∧ ∃ env1 result, runVkFFT 4 sampleEnv 0 = some (env1, result)
        ∧ env1.heap[result]? = some [Double.two, Double.negFive, Double.zero] :=
  ⟨rfl, by decide, runVkFFT_scenario 4 sampleEnv 0 rfl (by decide)⟩

/-- C6: at every index at which the input array holds NaN, the array returned
by `runVkFFT` holds NaN; the element is not examined before the multiplication,
the output at every index being the product of the input element and 2.0. -/
theorem runVkFFT_nan (fuel : Nat) (env : Runtime) (inputArray : jdoubleArray)
    (input : List Double) (h : env.heap[inputArray]? = some input)
    (hlen : input.length < 2 ^ 31) (hfuel : input.length < fuel) :
    ∃ env1 result output, runVkFFT fuel env inputArray = some (env1, result)
      ∧ env1.heap[result]? = some output
      ∧ (∀ i : Nat, input[i]? = some Double.nan → output[i]? = some Double.nan)
      ∧ output = input.map (fun x => Double.mul x Double.two) := by
  refine ⟨_, _, doubled input, runVkFFT_eq fuel env inputArray input h hlen hfuel,
    heap_getElem?_new _ _, ?_, rfl⟩
  intro i hx
  rw [doubled_getElem?, hx]
  rfl

/-- Witness of C6 on the array `[NaN, +inf, -inf, 1.0]`. -/
theorem runVkFFT_nan_witness :
    specialEnv.heap[0]?
        = some [Double.nan, Double.inf false, Double.inf true, Double.one]
      ∧ [Double.nan, Double.inf false, Double.inf true, Double.one].length < 2 ^ 31
      ∧ [Double.nan, Double.inf false, Double.inf true, Double.one].length < 5
      ∧ ∃ env1 result output, runVkFFT 5 specialEnv 0 = some (env1, result)
        ∧ env1.heap[result]? = some output
        ∧ (∀ i : Nat,
            [Double.nan, Double.inf false, Double.inf true, Double.one][i]? = some Double.nan →
              output[i]? = some Double.nan)
        ∧ output = [Double.nan, Double.inf false, Double.inf true, Double.one].map
            (fun x => Double.mul x Double.two) :=
  ⟨rfl, by decide, by decide,
    runVkFFT_nan 5 specialEnv 0 [Double.nan, Double.inf false, Double.inf true, Double.one]
      rfl (by decide) (by decide)⟩

/-- C7: at every index at which the input array holds an infinity, the array
returned by `runVkFFT` holds the infinity of the same sign. -/
theorem runVkFFT_inf (fuel : Nat) (env : Runtime) (inputArray : jdoubleArray)
    (input : List Double) (h : env.heap[inputArray]? = some input)
    (hlen : input.length < 2 ^ 31) (hfuel : input.length < fuel) :
    ∃ env1 result output, runVkFFT fuel env inputArray = some (env1, result)
      ∧ env1.heap[result]? = some output
      ∧ (∀ (i : Nat) (neg : Bool),
          input[i]? = some (Double.inf neg) → output[i]? = some (Double.inf neg)) := by
  refine ⟨_, _, doubled input, runVkFFT_eq fuel env inputArray input h hlen hfuel,
    heap_getElem?_new _ _, ?_⟩
  intro i neg hx
  rw [doubled_getElem?, hx]
  cases neg <;> rfl

/-- Witness of C7 on the array `[NaN, +inf, -inf, 1.0]`. -/
theorem runVkFFT_inf_witness :
    specialEnv.heap[0]?
        = some [Double.nan, Double.inf false, Double.inf true, Double.one]
      ∧ [Double.nan, Double.inf false, Double.inf true, Double.one].length < 2 ^ 31
      ∧ [Double.nan, Double.inf false, Double.inf true, Double.one].length < 5
      ∧ ∃ env1 result output, runVkFFT 5 specialEnv 0 = some (env1, result)
        ∧ env1.heap[result]? = some output
        ∧ (∀ (i : Nat) (neg : Bool),
            [Double.nan, Double.inf false, Double.inf true, Double.one][i]?
                = some (Double.inf neg) →
              output[i]? = some (Double.inf neg)) :=
  ⟨rfl, by decide, by decide,
    runVkFFT_inf 5 specialEnv 0 [Double.nan, Double.inf false, Double.inf true, Double.one]
      rfl (by decide) (by decide)⟩

/-- C8: the array returned by `runVkFFT` depends on the input sequence alone.
Two calls on equal input sequences return equal sequences, in whatever runtimes
(heap, log, reference, fuel) they are made; in particular a second call made in
the runtime the first call left behind returns the same sequence again. -/
theorem runVkFFT_deterministic (fuel1 fuel2 : Nat) (env1 env2 : Runtime)
    (array1 array2 : jdoubleArray) (input : List Double)
    (h1 : env1.heap[array1]? = some input) (h2 : env2.heap[array2]? = some input)
    (hlen : input.length < 2 ^ 31) (hfuel1 : input.length < fuel1)
    (hfuel2 : input.length < fuel2) :
    ∃ after1 result1 after2 result2 again result3 output,
      runVkFFT fuel1 env1 array1 = some (after1, result1)
      ∧ runVkFFT fuel2 env2 array2 = some (after2, result2)
      ∧ runVkFFT fuel2 after1 array1 = some (again, result3)
      ∧ after1.heap[result1]? = some output
      ∧ after2.heap[result2]? = some output
      ∧ again.heap[result3]? = some output := by
  have hr : array1 < env1.heap.length := by
    by_contra hc
    rw [List.getElem?_eq_none (Nat.le_of_not_lt hc)] at h1
    exact Option.noConfusion h1
  have h3 : (⟨env1.heap ++ [doubled input], env1.log⟩ : Runtime).heap[array1]? = some input := by
    show (env1.heap ++ [doubled input])[array1]? = some input
    rw [heap_getElem?_old _ _ _ hr, h1]
  exact ⟨_, _, _, _, _, _, doubled input,
    runVkFFT_eq fuel1 env1 array1 input h1 hlen hfuel1,
    runVkFFT_eq fuel2 env2 array2 input h2 hlen hfuel2,
    runVkFFT_eq fuel2 _ array1 input h3 hlen hfuel2,
    heap_getElem?_new _ _, heap_getElem?_new _ _, heap_getElem?_new _ _⟩

/-- Witness of C8: the array `[1.0, -2.5, 0.0]` in a fresh runtime and in one
with an earlier log record and an earlier array. -/
theorem runVkFFT_deterministic_witness :
    sampleEnv.heap[0]? = some [Double.one, Double.negTwoPointFive, Double.zero]
      ∧ laterEnv.heap[1]? = some [Double.one, Double.negTwoPointFive, Double.zero]
      ∧ [Double.one, Double.negTwoPointFive, Double.zero].length < 2 ^ 31
      ∧ [Double.one, Double.negTwoPointFive, Double.zero].length < 4
      ∧ [Double.one, Double.negTwoPointFive, Double.zero].length < 7
      ∧ ∃ after1 result1 after2 result2 again result3 output,
        runVkFFT 4 sampleEnv 0 = some (after1, result1)
        ∧ runVkFFT 7 laterEnv 1 = some (after2, result2)
        ∧ runVkFFT 7 after1 0 = some (again, result3)
        ∧ after1.heap[result1]? = some output
        ∧ after2.heap[result2]? = some output
        ∧ again.heap[result3]? = some output :=
  ⟨rfl, rfl, by decide, by decide, by decide,
    runVkFFT_deterministic 4 7 sampleEnv laterEnv 0 1
      [Double.one, Double.negTwoPointFive, Double.zero] rfl rfl
      (by decide) (by decide) (by decide)⟩

/-- C9: for every array of length `N`, a call of `runVkFFT` is, for every fuel,
its loop run from the counter 0 under the test `i < N`, followed by the write of
the loop's final vector to the result array.  With fuel above `N` that loop
executes its body exactly `N` times and leaves with the counter equal to `N`,
where the test fails, and `runVkFFT` returns the array holding the vector of that
final state; with fuel `N` or less neither the loop nor `runVkFFT` has finished,
so the body is not executed fewer than `N` times.  Each pass of the body adds one
to the counter. -/
theorem runVkFFT_terminates (fuel : Nat) (env : Runtime) (inputArray : jdoubleArray)
    (input : List Double) (h : env.heap[inputArray]? = some input)
    (hlen : input.length < 2 ^ 31) (hfuel : input.length < fuel) :
    (∀ f : Nat, runVkFFT f env inputArray
        = (whileLoop (loopCond (input.length : Int)) loopBody f ⟨0, input⟩).bind
            (fun r => writeResult env (input.length : Int) r.1.input))
      ∧ (∀ f : Nat, runVkFFT_iterations f env inputArray
          = (whileLoop (loopCond (input.length : Int)) loopBody f ⟨0, input⟩).map
              (fun r => r.2))
      ∧ (∃ s env1 result,
          whileLoop (loopCond (input.length : Int)) loopBody fuel ⟨0, input⟩
              = some (s, input.length)
            ∧ s.i = (input.length : Int) ∧ loopCond (input.length : Int) s = false
            ∧ runVkFFT fuel env inputArray = some (env1, result)
            ∧ env1.heap[result]? = some s.input)
      ∧ runVkFFT_iterations fuel env inputArray = some input.length
      ∧ (∀ f : Nat, f ≤ input.length →
          whileLoop (loopCond (input.length : Int)) loopBody f ⟨0, input⟩ = none
            ∧ runVkFFT f env inputArray = none)
      ∧ (∀ s s1 : LoopState, s.i < (input.length : Int) → loopBody s = some s1 →
          s1.i = s.i + 1) := by
  have hrun : ∀ f : Nat, runVkFFT f env inputArray
      = (whileLoop (loopCond (input.length : Int)) loopBody f ⟨0, input⟩).bind
          (fun r => writeResult env (input.length : Int) r.1.input) := by
    intro f
    show Java_com_seuprojeto_vkfftlib_VulkanBridge_runVkFFT f env inputArray = _
    unfold Java_com_seuprojeto_vkfftlib_VulkanBridge_runVkFFT
    rw [readInput_eq env inputArray input h hlen]
    show (match forLoop f (input.length : Int) input with
      | none => none
      | some (s, _) => writeResult env (input.length : Int) s.input) = _
    unfold forLoop
    cases whileLoop (loopCond (input.length : Int)) loopBody f ⟨0, input⟩ <;> rfl
  have hiter : ∀ f : Nat, runVkFFT_iterations f env inputArray
      = (whileLoop (loopCond (input.length : Int)) loopBody f ⟨0, input⟩).map
          (fun r => r.2) := by
    intro f
    unfold runVkFFT_iterations
    rw [readInput_eq env inputArray input h hlen]
    show (match forLoop f (input.length : Int) input with
      | none => none
      | some (_, n) => some n) = _
    unfold forLoop
    cases whileLoop (loopCond (input.length : Int)) loopBody f ⟨0, input⟩ <;> rfl
  refine ⟨hrun, hiter,
    ⟨_, _, _, forLoop_eq input fuel hlen hfuel, rfl, by simp [loopCond],
      runVkFFT_eq fuel env inputArray input h hlen hfuel, heap_getElem?_new _ _⟩,
    runVkFFT_iterations_eq fuel env inputArray input h hlen hfuel, ?_, ?_⟩
  · intro f hf
    have hnone := forLoop_out_of_fuel input f hlen hf
    unfold forLoop at hnone
    refine ⟨hnone, ?_⟩
    rw [hrun f, hnone]
    rfl
  · intro s s1 hs hb
    unfold loopBody at hb
    split at hb
    · rename_i h0
      split at hb
      · exact Option.noConfusion hb
      · have hi := congrArg LoopState.i (Option.some.inj hb)
        simp only at hi
        rw [← hi]
        exact wrapInt32_of_range _ (by omega) (by omega)
    · exact Option.noConfusion hb

/-- Witness of C9 on the array `[1.0, -2.5, 0.0]`. -/
theorem runVkFFT_terminates_witness :
    sampleEnv.heap[0]? = some [Double.one, Double.negTwoPointFive, Double.zero]
      ∧ [Double.one, Double.negTwoPointFive, Double.zero].length < 2 ^ 31
      ∧ [Double.one, Double.negTwoPointFive, Double.zero].length < 4
      ∧ (∀ f : Nat, runVkFFT f sampleEnv 0
          = (whileLoop
                (loopCond ([Double.one, Double.negTwoPointFive, Double.zero].length : Int))
                loopBody f ⟨0, [Double.one, Double.negTwoPointFive, Double.zero]⟩).bind
              (fun r => writeResult sampleEnv
                ([Double.one, Double.negTwoPointFive, Double.zero].length : Int) r.1.input))
      ∧ (∀ f : Nat, runVkFFT_iterations f sampleEnv 0
          = (whileLoop
                (loopCond ([Double.one, Double.negTwoPointFive, Double.zero].length : Int))
                loopBody f ⟨0, [Double.one, Double.negTwoPointFive, Double.zero]⟩).map
              (fun r => r.2))
      ∧ (∃ s env1 result,
          whileLoop
              (loopCond ([Double.one, Double.negTwoPointFive, Double.zero].length : Int))
              loopBody 4 ⟨0, [Double.one, Double.negTwoPointFive, Double.zero]⟩
            = some (s, [Double.one, Double.negTwoPointFive, Double.zero].length)
          ∧ s.i = ([Double.one, Double.negTwoPointFive, Double.zero].length : Int)
          ∧ loopCond ([Double.one, Double.negTwoPointFive, Double.zero].length : Int) s
              = false
          ∧ runVkFFT 4 sampleEnv 0 = some (env1, result)
          ∧ env1.heap[result]? = some s.input)
      ∧ runVkFFT_iterations 4 sampleEnv 0
          = some [Double.one, Double.negTwoPointFive, Double.zero].length
      ∧ (∀ f : Nat, f ≤ [Double.one, Double.negTwoPointFive, Double.zero].length →
          whileLoop
              (loopCond ([Double.one, Double.negTwoPointFive, Double.zero].length : Int))
              loopBody f ⟨0, [Double.one, Double.negTwoPointFive, Double.zero]⟩ = none
            ∧ runVkFFT f sampleEnv 0 = none)
      ∧ (∀ s s1 : LoopState,
          s.i < ([Double.one, Double.negTwoPointFive, Double.zero].length : Int) →
          loopBody s = some s1 → s1.i = s.i + 1) :=
  ⟨rfl, by decide, by decide,
    runVkFFT_terminates 4 sampleEnv 0 [Double.one, Double.negTwoPointFive, Double.zero]
      rfl (by decide) (by decide)⟩

/-- C10, as stated, fails: a call of `runVkFFT` on the empty array in a runtime
with an empty log does not leave a log that is the old one followed by one
record of priority `ANDROID_LOG_INFO` under the tag `VkFFTBridge`. -/
theorem runVkFFT_log_record_counterexample :
    ¬ ∃ env1 result r, runVkFFT 1 emptyArrayEnv 0 = some (env1, result)
        ∧ env1.log = emptyArrayEnv.log ++ [r]
        ∧ r.prio = LogPriority.ANDROID_LOG_INFO ∧ r.tag = LOG_TAG := by
  rintro ⟨env1, result, r, hrun, hlog, _⟩
  have he : runVkFFT 1 emptyArrayEnv 0 = some (⟨[[], []], []⟩, 1) := by decide
  rw [he] at hrun
  have h1 : (⟨[[], []], []⟩ : Runtime) = env1 := congrArg Prod.fst (Option.some.inj hrun)
  rw [← h1] at hlog
  simp [emptyArrayEnv] at hlog

/-- C10, amended: a call of `runVkFFT` emits no log record; the log after the
call is the log before it, for every input array. -/
theorem runVkFFT_log_unchanged (fuel : Nat) (env : Runtime) (inputArray : jdoubleArray)
    (input : List Double) (h : env.heap[inputArray]? = some input)
    (hlen : input.length < 2 ^ 31) (hfuel : input.length < fuel) :
    ∃ env1 result, runVkFFT fuel env inputArray = some (env1, result)
      ∧ env1.log = env.log :=
  ⟨_, _, runVkFFT_eq fuel env inputArray input h hlen hfuel, rfl⟩

/-- Witness of the amended C10 in a runtime whose log holds one earlier
record. -/
theorem runVkFFT_log_unchanged_witness :
    laterEnv.heap[1]? = some [Double.one, Double.negTwoPointFive, Double.zero]
      ∧ [Double.one, Double.negTwoPointFive, Double.zero].length < 2 ^ 31
      ∧ [Double.one, Double.negTwoPointFive, Double.zero].length < 4
      ∧ ∃ env1 result, runVkFFT 4 laterEnv 1 = some (env1, result)
        ∧ env1.log = laterEnv.log :=
  ⟨rfl, by decide, by decide,
    runVkFFT_log_unchanged 4 laterEnv 1 [Double.one, Double.negTwoPointFive, Double.zero]
      rfl (by decide) (by decide)⟩

end VkFFTBridge
